import Mathlib

/-!
Verification of the link/domain risk-classification core of the phishing
email detection project (files `link_analyzer.py` and `project_prototype.py`).

The Python code is shallowly embedded on `List Char` / `String`:

* the three precompiled regular expressions of `link_analyzer.py`
  (`URL_PATTERN`, `BARE_DOMAIN_PATTERN`, `TRAILING_PUNCT_RE`) are embedded as
  direct left-to-right scanning functions with the exact backtracking
  semantics of Python `re` on these particular patterns;
* `difflib.get_close_matches` / `SequenceMatcher.ratio` (the standard-library
  dependency used for typosquatting detection) is embedded as the
  Ratcliff-Obershelp matching-block computation that difflib performs for
  inputs shorter than 200 characters (the `autojunk` special case, which only
  triggers for a second sequence of length >= 200, is not modelled; no junk
  predicate is passed by this code base).  Ratio-vs-cutoff comparisons are
  done in exact rational arithmetic; for the string lengths and the cutoffs
  (0.75 and 0.70) appearing in this program the float comparisons of difflib
  agree with the exact ones, because a rational with denominator bounded by
  the summed string lengths cannot lie within a double ulp of the cutoff;
* character classes follow the ASCII meaning of the Python classes
  (`\w`, `\s`, `str.lower`); the inputs manipulated by this program are
  ASCII domain names and URLs.

Functions defined by recursion on a shrinking list are written with an
explicit fuel argument (structural recursion on the fuel) so that they
evaluate by kernel reduction; the fuel passed by the public wrapper strictly
exceeds the measure consumed per step, and a fuel-irrelevance lemma is proved
for each such function.
-/

/-! ## Character classes (ASCII readings of the Python classes) -/

/-- The class `[A-Za-z]` of the final label of `BARE_DOMAIN_PATTERN`. -/
def isAsciiLetter (c : Char) : Bool := c.isAlpha

/-- The class `[A-Za-z0-9-]` of the inner labels of `BARE_DOMAIN_PATTERN`. -/
def isLabelChar (c : Char) : Bool := c.isAlphanum || c = '-'

/-- Python `\w` (ASCII): `[A-Za-z0-9_]`; used for the `\b` word boundary. -/
def isWordChar (c : Char) : Bool := c.isAlphanum || c = '_'

/-- Python `\s` (ASCII): space, tab, newline, carriage return, form feed,
vertical tab. -/
def isPySpace (c : Char) : Bool :=
  c = ' ' || c = '\t' || c = '\n' || c = '\r' || c = Char.ofNat 11 || c = Char.ofNat 12

/-- The run class `[^\s)]` of `URL_PATTERN`. -/
def isUrlChar (c : Char) : Bool := !(isPySpace c || c = ')')

/-- The characters of `TRAILING_PUNCT_RE`: `[\.,;:!\)]`. -/
def isTrailPunct (c : Char) : Bool :=
  c = '.' || c = ',' || c = ';' || c = ':' || c = '!' || c = ')'

/-- Wordness of the character preceding the scan position (`none` at the
start of the string counts as non-word, as in Python `\b`). -/
def isWordOpt : Option Char → Bool
  | none => false
  | some c => isWordChar c

/-- ASCII lowercasing, as Python `str.lower` acts on ASCII input.  Spelled
out as a table so that its simple properties are provable by case split. -/
def lowerC (c : Char) : Char :=
  if c = 'A' then 'a' else if c = 'B' then 'b' else if c = 'C' then 'c'
  else if c = 'D' then 'd' else if c = 'E' then 'e' else if c = 'F' then 'f'
  else if c = 'G' then 'g' else if c = 'H' then 'h' else if c = 'I' then 'i'
  else if c = 'J' then 'j' else if c = 'K' then 'k' else if c = 'L' then 'l'
  else if c = 'M' then 'm' else if c = 'N' then 'n' else if c = 'O' then 'o'
  else if c = 'P' then 'p' else if c = 'Q' then 'q' else if c = 'R' then 'r'
  else if c = 'S' then 's' else if c = 'T' then 't' else if c = 'U' then 'u'
  else if c = 'V' then 'v' else if c = 'W' then 'w' else if c = 'X' then 'x'
  else if c = 'Y' then 'y' else if c = 'Z' then 'z' else c

/-! ## Small list utilities -/

/-- Length of the maximal run of characters satisfying `p` at the head of the
list (what a greedy `[class]+` or `[class]*` consumes). -/
def runLen (p : Char → Bool) : List Char → Nat
  | [] => 0
  | c :: s => if p c then runLen p s + 1 else 0

/-- Length of the common prefix of two lists. -/
def cpl : List Char → List Char → Nat
  | a :: as, b :: bs => if a = b then cpl as bs + 1 else 0
  | _, _ => 0

/-- Case-sensitive literal prefix: `some rest` when `lit` is a prefix. -/
def dropLit : List Char → List Char → Option (List Char)
  | [], s => some s
  | _ :: _, [] => none
  | l :: ls, c :: cs => if c = l then dropLit ls cs else none

/-- Case-insensitive literal prefix (Python `re.IGNORECASE` on ASCII). -/
def dropLitCI : List Char → List Char → Option (List Char)
  | [], s => some s
  | _ :: _, [] => none
  | l :: ls, c :: cs => if lowerC c = lowerC l then dropLitCI ls cs else none

theorem runLen_le (p : Char → Bool) : ∀ s : List Char, runLen p s ≤ s.length := by
  intro s
  induction s with
  | nil => simp [runLen]
  | cons c s ih =>
    simp only [runLen, List.length_cons]
    split <;> omega

theorem cpl_le_left : ∀ a b : List Char, cpl a b ≤ a.length := by
  intro a
  induction a with
  | nil => intro b; cases b <;> simp [cpl]
  | cons x xs ih =>
    intro b
    cases b with
    | nil => simp [cpl]
    | cons y ys =>
      simp only [cpl, List.length_cons]
      split
      · exact Nat.succ_le_succ (ih ys)
      · omega

theorem cpl_le_right : ∀ a b : List Char, cpl a b ≤ b.length := by
  intro a
  induction a with
  | nil => intro b; cases b <;> simp [cpl]
  | cons x xs ih =>
    intro b
    cases b with
    | nil => simp [cpl]
    | cons y ys =>
      simp only [cpl, List.length_cons]
      split
      · exact Nat.succ_le_succ (ih ys)
      · omega

/-! ## difflib model

`SequenceMatcher(None, a, b)` with `len b < 200`: `find_longest_match` is the
longest common contiguous block, ties resolved towards the smallest start in
`a`, then the smallest start in `b`; `get_matching_blocks` recurses on the
pieces to the left and to the right of that block; `ratio` is `2*M/T` where
`M` is the total size of the matching blocks and `T` the summed length. -/

/-- Longest common contiguous block of `a` and `b`: returns `(i, j, k)` with
the difflib tie-break (first strict improvement in lexicographic `(i, j)`
scan order), `(0, 0, 0)` when there is no common character. -/
def longestBlock (a b : List Char) : Nat × Nat × Nat :=
  (List.range a.length).foldl
    (fun best i =>
      (List.range b.length).foldl
        (fun best j =>
          let k := cpl (a.drop i) (b.drop j)
          if best.2.2 < k then (i, j, k) else best)
        best)
    (0, 0, 0)

/-- The block returned by `longestBlock` lies inside both lists. -/
theorem longestBlock_bound (a b : List Char) :
    (longestBlock a b).1 + (longestBlock a b).2.2 ≤ a.length ∧
    (longestBlock a b).2.1 + (longestBlock a b).2.2 ≤ b.length := by
  have step : ∀ (P : Nat × Nat × Nat → Prop) (l : List Nat)
      (f : Nat × Nat × Nat → Nat → Nat × Nat × Nat) (init : Nat × Nat × Nat),
      P init → (∀ acc x, P acc → P (f acc x)) → P (l.foldl f init) := by
    intro P l
    induction l with
    | nil => intro f init h _; exact h
    | cons x xs ih => intro f init h hstep; exact ih f (f init x) (hstep init x h) hstep
  refine step (fun best => best.1 + best.2.2 ≤ a.length ∧ best.2.1 + best.2.2 ≤ b.length)
    _ _ _ (by simp) ?_
  intro acc i hacc
  refine step (fun best => best.1 + best.2.2 ≤ a.length ∧ best.2.1 + best.2.2 ≤ b.length)
    _ _ _ hacc ?_
  intro acc' j hacc'
  simp only
  split
  · next hk =>
    have h1 := cpl_le_left (a.drop i) (b.drop j)
    have h2 := cpl_le_right (a.drop i) (b.drop j)
    simp only [List.length_drop] at h1 h2
    have hk' : acc'.2.2 < cpl (a.drop i) (b.drop j) := hk
    constructor
    · show i + cpl (a.drop i) (b.drop j) ≤ a.length
      omega
    · show j + cpl (a.drop i) (b.drop j) ≤ b.length
      omega
  · exact hacc'

/-- Total size of the Ratcliff-Obershelp matching blocks (fuel version;
structural recursion on the fuel so that it evaluates by `decide`). -/
def matchTotalF : Nat → List Char → List Char → Nat
  | 0, _, _ => 0
  | fuel + 1, a, b =>
    match longestBlock a b with
    | (i, j, k) =>
      if k = 0 then 0
      else
        matchTotalF fuel (a.take i) (b.take j) + k +
          matchTotalF fuel (a.drop (i + k)) (b.drop (j + k))

/-- Total size of the matching blocks of `SequenceMatcher(None, a, b)`. -/
def matchTotal (a b : List Char) : Nat := matchTotalF (a.length + b.length + 1) a b

theorem matchTotalF_irrel : ∀ f₁ f₂ a b, a.length + b.length < f₁ →
    a.length + b.length < f₂ → matchTotalF f₁ a b = matchTotalF f₂ a b := by
  intro f₁
  induction f₁ with
  | zero => intro f₂ a b h; omega
  | succ f ih =>
    intro f₂ a b h₁ h₂
    cases f₂ with
    | zero => omega
    | succ g =>
      simp only [matchTotalF]
      have hb := longestBlock_bound a b
      cases hlb : longestBlock a b with
      | mk i jk =>
        cases jk with
        | mk j k =>
          rw [hlb] at hb
          simp only at hb
          by_cases hk : k = 0
          · simp [hk]
          · simp only [hk, if_false]
            have hta : (a.take i).length = i := by
              rw [List.length_take]; omega
            have htb : (b.take j).length = j := by
              rw [List.length_take]; omega
            have hda : (a.drop (i + k)).length = a.length - (i + k) := by simp
            have hdb : (b.drop (j + k)).length = b.length - (j + k) := by simp
            rw [ih g (a.take i) (b.take j) (by omega) (by omega),
                ih g (a.drop (i + k)) (b.drop (j + k)) (by omega) (by omega)]

/-- Test `ratio >= num/den` (exact-rational reading of the difflib float test;
difflib defines the ratio of two empty sequences to be `1.0`, which the
inequality `0 >= num * 0` also gives). -/
def simGe (a b : List Char) (num den : Nat) : Bool :=
  num * (a.length + b.length) ≤ 2 * matchTotal a b * den

/-- Python string comparison (`>`, lexicographic on code points). -/
def strGt : List Char → List Char → Bool
  | [], _ => false
  | _ :: _, [] => true
  | a :: as, b :: bs => if a = b then strGt as bs else decide (b.val < a.val)

/-- Comparison `(ratio of x vs w, x) > (ratio of y vs w, y)` — the tuple order used by
`heapq.nlargest` on the `(ratio, candidate)` pairs of `get_close_matches`. -/
def simBetter (w x y : List Char) : Bool :=
  let mx := matchTotal x w
  let my := matchTotal y w
  if my * (x.length + w.length) < mx * (y.length + w.length) then true
  else if mx * (y.length + w.length) = my * (x.length + w.length) then strGt x y
  else false

/-- Model of `difflib.get_close_matches(word, poss, n, cutoff)[0]` (the best match at
or above the cutoff `num/den`), or `none` when no candidate passes the
cutoff.  The code base only ever looks at emptiness and at index `[0]` of
the result, so only the best element is modelled; `nlargest` puts the
largest `(ratio, candidate)` pair first, ties between equal pairs keep the
earlier candidate. -/
def getCloseMatch (word : String) (poss : List String) (num den : Nat) : Option String :=
  poss.foldl
    (fun best x =>
      if simGe x.toList word.toList num den then
        match best with
        | none => some x
        | some b => if simBetter word.toList x.toList b.toList then some x else some b
      else best)
    none

/-! ## `URL_PATTERN` scanner

`re.compile(r'(https?://[^\s)]+|www\.[^\s)]+)')` — at each scan position the
alternatives are tried in order (greedy `s?`: `https://` before `http://`),
each consuming a maximal nonempty run of `[^\s)]`; `finditer` emits
non-overlapping matches left to right, resuming after each match. -/

def httpsLit : List Char := ['h', 't', 't', 'p', 's', ':', '/', '/']

def httpLit : List Char := ['h', 't', 't', 'p', ':', '/', '/']

def wwwLit : List Char := ['w', 'w', 'w', '.']

/-- One alternative ``lit[^\s)]+`` of `URL_PATTERN` at the current position:
`some (match, rest)` on success. -/
def altMatch (lit s : List Char) : Option (List Char × List Char) :=
  match dropLit lit s with
  | none => none
  | some rest =>
    let r := runLen isUrlChar rest
    if r = 0 then none else some (lit ++ rest.take r, rest.drop r)

/-- Match of `URL_PATTERN` at the current position. -/
def urlAt (s : List Char) : Option (List Char × List Char) :=
  match altMatch httpsLit s with
  | some p => some p
  | none =>
    match altMatch httpLit s with
    | some p => some p
    | none => altMatch wwwLit s

theorem dropLit_some_length : ∀ lit s r : List Char,
    dropLit lit s = some r → s.length = lit.length + r.length := by
  intro lit
  induction lit with
  | nil => intro s r h; simp only [dropLit, Option.some.injEq] at h; simp [← h]
  | cons l ls ih =>
    intro s r h
    cases s with
    | nil => simp [dropLit] at h
    | cons c cs =>
      simp only [dropLit] at h
      split at h
      · have := ih cs r h
        simp only [List.length_cons]
        omega
      · exact absurd h (by simp)

theorem altMatch_length {lit s m r : List Char} (hlit : lit ≠ [])
    (h : altMatch lit s = some (m, r)) : r.length < s.length := by
  unfold altMatch at h
  cases hd : dropLit lit s with
  | none => rw [hd] at h; exact absurd h (by simp)
  | some rest =>
    rw [hd] at h
    simp only at h
    split at h
    · exact absurd h (by simp)
    · next hr =>
      simp only [Option.some.injEq, Prod.mk.injEq] at h
      have hlen := dropLit_some_length lit s rest hd
      have : r.length = rest.length - runLen isUrlChar rest := by
        rw [← h.2]; simp
      have hrun := runLen_le isUrlChar rest
      have : lit.length ≠ 0 := by
        intro hz
        exact hlit (List.eq_nil_of_length_eq_zero hz)
      omega

theorem urlAt_length {s m r : List Char} (h : urlAt s = some (m, r)) :
    r.length < s.length := by
  unfold urlAt at h
  cases h1 : altMatch httpsLit s with
  | some p =>
    rw [h1] at h
    simp only [Option.some.injEq] at h
    subst h
    exact altMatch_length (by simp [httpsLit]) h1
  | none =>
    rw [h1] at h
    cases h2 : altMatch httpLit s with
    | some p =>
      rw [h2] at h
      simp only [Option.some.injEq] at h
      subst h
      exact altMatch_length (by simp [httpLit]) h2
    | none =>
      rw [h2] at h
      exact altMatch_length (by simp [wwwLit]) h


/-- Model of `URL_PATTERN.finditer` (fuel version; the fuel strictly exceeds the
number of characters left, and every step consumes at least one). -/
def urlFindF : Nat → List Char → List (List Char)
  | 0, _ => []
  | _ + 1, [] => []
  | fuel + 1, c :: rest =>
    match urlAt (c :: rest) with
    | some (m, r) => m :: urlFindF fuel r
    | none => urlFindF fuel rest

/-- All matches of `URL_PATTERN` in `s`, in scan order. -/
def urlFind (s : List Char) : List (List Char) := urlFindF (s.length + 1) s

theorem urlFindF_cons_some {c : Char} {rest m r : List Char} (f : Nat)
    (hu : urlAt (c :: rest) = some (m, r)) :
    urlFindF (f + 1) (c :: rest) = m :: urlFindF f r := by
  have he : urlFindF (f + 1) (c :: rest) =
      match urlAt (c :: rest) with
      | some (m, r) => m :: urlFindF f r
      | none => urlFindF f rest := rfl
  rw [he, hu]

theorem urlFindF_cons_none {c : Char} {rest : List Char} (f : Nat)
    (hu : urlAt (c :: rest) = none) :
    urlFindF (f + 1) (c :: rest) = urlFindF f rest := by
  have he : urlFindF (f + 1) (c :: rest) =
      match urlAt (c :: rest) with
      | some (m, r) => m :: urlFindF f r
      | none => urlFindF f rest := rfl
  rw [he, hu]

theorem urlFindF_irrel : ∀ f₁ f₂ s, s.length < f₁ → s.length < f₂ →
    urlFindF f₁ s = urlFindF f₂ s := by
  intro f₁
  induction f₁ with
  | zero => intro f₂ s h; omega
  | succ f ih =>
    intro f₂ s h₁ h₂
    cases f₂ with
    | zero => omega
    | succ g =>
      cases s with
      | nil => rfl
      | cons c rest =>
        simp only [List.length_cons] at h₁ h₂
        cases hu : urlAt (c :: rest) with
        | some p =>
          cases p with
          | mk m r =>
            have hr := urlAt_length hu
            simp only [List.length_cons] at hr
            rw [urlFindF_cons_some f hu, urlFindF_cons_some g hu,
              ih g r (by omega) (by omega)]
        | none =>
          rw [urlFindF_cons_none f hu, urlFindF_cons_none g hu]
          exact ih g rest (by omega) (by omega)

theorem urlFind_nil : urlFind [] = [] := rfl

theorem urlFind_cons_some {c : Char} {rest m r : List Char}
    (hu : urlAt (c :: rest) = some (m, r)) :
    urlFind (c :: rest) = m :: urlFind r := by
  have hr := urlAt_length hu
  simp only [List.length_cons] at hr
  show urlFindF (rest.length + 1 + 1) (c :: rest) = _
  rw [urlFindF_cons_some _ hu]
  unfold urlFind
  rw [urlFindF_irrel (rest.length + 1) (r.length + 1) r (by omega) (by omega)]

theorem urlFind_cons_none {c : Char} {rest : List Char}
    (hu : urlAt (c :: rest) = none) :
    urlFind (c :: rest) = urlFind rest := by
  show urlFindF (rest.length + 1 + 1) (c :: rest) = _
  rw [urlFindF_cons_none _ hu]
  rfl

/-! ## `BARE_DOMAIN_PATTERN` scanner

`re.compile(r'(?<!@)\b(?:[A-Za-z0-9-]+\.)+[A-Za-z]{2,}\b')`.

At a given position, each group `[A-Za-z0-9-]+\.` can only consume a maximal
label run followed by a literal dot (a shorter run would be followed by a
class character, not by `.`), and shortening the greedy `[A-Za-z]{2,}`
always leaves a word character next, so the final `\b` forces the letter run
to be maximal.  The only genuine backtracking is the greedy `(?:...)+`
count, tried from the largest number of groups downwards; `bareTailF`
mirrors exactly that search order. -/

/-- Tail piece `[A-Za-z]{2,}\b`: maximal letter run, of length at least 2, with a word
boundary after it; returns the consumed length. -/
def letterEnd (s : List Char) : Option Nat :=
  if 2 ≤ runLen isAsciiLetter s then
    match s.drop (runLen isAsciiLetter s) with
    | [] => some (runLen isAsciiLetter s)
    | c :: _ => if isWordChar c then none else some (runLen isAsciiLetter s)
  else none

theorem letterEnd_le {s : List Char} {m : Nat} (h : letterEnd s = some m) :
    m ≤ s.length := by
  unfold letterEnd at h
  have hr := runLen_le isAsciiLetter s
  split at h
  · split at h
    · simp only [Option.some.injEq] at h; omega
    · split at h
      · exact absurd h (by simp)
      · simp only [Option.some.injEq] at h; omega
  · exact absurd h (by simp)

/-- Match of `(?:[A-Za-z0-9-]+\.)+[A-Za-z]{2,}\b` at the current position (fuel
version); returns the length of the match found first in the backtracking
order of Python `re` (as many groups as possible, then fewer). -/
def bareTailF : Nat → List Char → Option Nat
  | 0, _ => none
  | fuel + 1, s =>
    if runLen isLabelChar s = 0 then none
    else
      match s.drop (runLen isLabelChar s) with
      | c :: rest =>
        if c = '.' then
          match bareTailF fuel rest with
          | some n => some (runLen isLabelChar s + 1 + n)
          | none =>
            match letterEnd rest with
            | some m => some (runLen isLabelChar s + 1 + m)
            | none => none
        else none
      | [] => none

/-- The tail of `BARE_DOMAIN_PATTERN` at the current position. -/
def bareTail (s : List Char) : Option Nat := bareTailF (s.length + 1) s

theorem bareTailF_irrel : ∀ f₁ f₂ s, s.length < f₁ → s.length < f₂ →
    bareTailF f₁ s = bareTailF f₂ s := by
  intro f₁
  induction f₁ with
  | zero => intro f₂ s h _; omega
  | succ f ih =>
    intro f₂ s h₁ h₂
    cases f₂ with
    | zero => omega
    | succ g =>
      simp only [bareTailF]
      by_cases h0 : runLen isLabelChar s = 0
      · simp [h0]
      · simp only [h0, if_false]
        cases hd : s.drop (runLen isLabelChar s) with
        | nil => rfl
        | cons c rest =>
          dsimp only
          by_cases hc : c = '.'
          · subst hc
            have hr := runLen_le isLabelChar s
            have hlen : (s.drop (runLen isLabelChar s)).length =
                s.length - runLen isLabelChar s := by simp
            rw [hd] at hlen
            simp only [List.length_cons] at hlen
            rw [ih g rest (by omega) (by omega)]
          · simp [hc]

/-- Unfolding of `bareTail` in terms of itself. -/
theorem bareTail_eq (s : List Char) :
    bareTail s =
      if runLen isLabelChar s = 0 then none
      else
        match s.drop (runLen isLabelChar s) with
        | c :: rest =>
          if c = '.' then
            match bareTail rest with
            | some n => some (runLen isLabelChar s + 1 + n)
            | none =>
              match letterEnd rest with
              | some m => some (runLen isLabelChar s + 1 + m)
              | none => none
          else none
        | [] => none := by
  show bareTailF (s.length + 1) s = _
  simp only [bareTailF]
  by_cases h0 : runLen isLabelChar s = 0
  · simp [h0]
  · simp only [h0, if_false]
    cases hd : s.drop (runLen isLabelChar s) with
    | nil => rfl
    | cons c rest =>
      dsimp only
      by_cases hc : c = '.'
      · subst hc
        have hr := runLen_le isLabelChar s
        have hlen : (s.drop (runLen isLabelChar s)).length =
            s.length - runLen isLabelChar s := by simp
        rw [hd] at hlen
        simp only [List.length_cons] at hlen
        rw [bareTailF_irrel s.length (rest.length + 1) rest (by omega) (by omega)]
        rfl
      · simp [hc]

theorem bareTail_bounds_aux : ∀ len (s : List Char), s.length ≤ len →
    ∀ n, bareTail s = some n → 1 ≤ n ∧ n ≤ s.length := by
  intro len
  induction len with
  | zero =>
    intro s hs n h
    have hnil : s = [] := List.eq_nil_of_length_eq_zero (Nat.le_zero.mp hs)
    subst hnil
    simp [bareTail, bareTailF, runLen] at h
  | succ len ih =>
    intro s hs n h
    rw [bareTail_eq] at h
    split at h
    · exact absurd h (by simp)
    · next h0 =>
      have hr := runLen_le isLabelChar s
      split at h
      · next c rest hd =>
        have hlen : (s.drop (runLen isLabelChar s)).length =
            s.length - runLen isLabelChar s := by simp
        rw [hd] at hlen
        simp only [List.length_cons] at hlen
        split at h
        · split at h
          · next n' hn' =>
            have := ih rest (by omega) n' hn'
            simp only [Option.some.injEq] at h
            omega
          · split at h
            · next m hm =>
              have := letterEnd_le hm
              simp only [Option.some.injEq] at h
              omega
            · exact absurd h (by simp)
        · exact absurd h (by simp)
      · exact absurd h (by simp)

theorem bareTail_bounds (s : List Char) (n : Nat) (h : bareTail s = some n) :
    1 ≤ n ∧ n ≤ s.length :=
  bareTail_bounds_aux s.length s le_rfl n h

/-- Model of `BARE_DOMAIN_PATTERN.finditer` (fuel version).  `prev` is the character
just before the scan position (`none` at the start): the lookbehind
`(?<!@)` fails when it is `@`, and the leading `\b` requires the wordness of
`prev` and of the current character to differ; after a match the scan
resumes at its end, the last matched character becoming `prev`. -/
def bareFindF : Nat → Option Char → List Char → List (List Char)
  | 0, _, _ => []
  | _ + 1, _, [] => []
  | fuel + 1, prev, c :: rest =>
    if prev ≠ some '@' ∧ isWordOpt prev ≠ isWordChar c then
      match bareTail (c :: rest) with
      | some n =>
        (c :: rest).take n ::
          bareFindF fuel (((c :: rest).take n).getLast?) ((c :: rest).drop n)
      | none => bareFindF fuel (some c) rest
    else bareFindF fuel (some c) rest

/-- All matches of `BARE_DOMAIN_PATTERN` in `s`, in scan order, scanning
with preceding character `prev`. -/
def bareFind (prev : Option Char) (s : List Char) : List (List Char) :=
  bareFindF (s.length + 1) prev s

theorem bareFindF_irrel : ∀ f₁ f₂ prev s, s.length < f₁ → s.length < f₂ →
    bareFindF f₁ prev s = bareFindF f₂ prev s := by
  intro f₁
  induction f₁ with
  | zero => intro f₂ prev s h _; omega
  | succ f ih =>
    intro f₂ prev s h₁ h₂
    cases f₂ with
    | zero => omega
    | succ g =>
      cases s with
      | nil => rfl
      | cons c rest =>
        simp only [bareFindF, List.length_cons] at h₁ h₂ ⊢
        by_cases hcond : prev ≠ some '@' ∧ isWordOpt prev ≠ isWordChar c
        · rw [if_pos hcond, if_pos hcond]
          cases hbt : bareTail (c :: rest) with
          | some n =>
            dsimp only
            have hb := bareTail_bounds (c :: rest) n hbt
            simp only [List.length_cons] at hb
            have hdl : ((c :: rest).drop n).length = rest.length + 1 - n := by
              simp
            rw [ih g _ ((c :: rest).drop n) (by omega) (by omega)]
          | none =>
            dsimp only
            exact ih g (some c) rest (by omega) (by omega)
        · rw [if_neg hcond, if_neg hcond]
          exact ih g (some c) rest (by omega) (by omega)

/-- Unfolding of `bareFind` on a cons cell. -/
theorem bareFind_cons (prev : Option Char) (c : Char) (rest : List Char) :
    bareFind prev (c :: rest) =
      if prev ≠ some '@' ∧ isWordOpt prev ≠ isWordChar c then
        match bareTail (c :: rest) with
        | some n =>
          (c :: rest).take n ::
            bareFind (((c :: rest).take n).getLast?) ((c :: rest).drop n)
        | none => bareFind (some c) rest
      else bareFind (some c) rest := by
  show bareFindF (rest.length + 1 + 1) prev (c :: rest) = _
  simp only [bareFindF]
  by_cases hcond : prev ≠ some '@' ∧ isWordOpt prev ≠ isWordChar c
  · rw [if_pos hcond, if_pos hcond]
    cases hbt : bareTail (c :: rest) with
    | some n =>
      dsimp only
      have hb := bareTail_bounds (c :: rest) n hbt
      simp only [List.length_cons] at hb
      have hdl : ((c :: rest).drop n).length = rest.length + 1 - n := by simp
      rw [bareFindF_irrel (rest.length + 1) (((c :: rest).drop n).length + 1) _
        ((c :: rest).drop n) (by omega) (by omega)]
      rfl
    | none =>
      dsimp only
      exact bareFindF_irrel (rest.length + 1) (rest.length + 1) (some c) rest
        (by omega) (by omega)
  · rw [if_neg hcond, if_neg hcond]
    exact bareFindF_irrel (rest.length + 1) (rest.length + 1) (some c) rest
      (by omega) (by omega)

theorem bareFind_nil (prev : Option Char) : bareFind prev [] = [] := rfl

/-! ## `TRAILING_PUNCT_RE.sub('', ...)` and `extract_urls` -/

/-- Remove the maximal run of `TRAILING_PUNCT_RE` characters at the end. -/
def dropRunEnd (s : List Char) : List Char :=
  (s.reverse.dropWhile isTrailPunct).reverse

/-- Model of `TRAILING_PUNCT_RE.sub('', s)` for the anchored pattern `[\.,;:!\)]+$`:
Python `$` matches at the end of the string and also just before a newline
that ends the string, so a punctuation run in either position is removed. -/
def stripT (s : List Char) : List Char :=
  if s.getLast? = some '\n' then dropRunEnd s.dropLast ++ ['\n'] else dropRunEnd s

/-- Deduplication with a `seen` accumulator, keeping first occurrences —
the `seen`/`results` loop of `extract_urls`. -/
def dedupAux (seen : List (List Char)) : List (List Char) → List (List Char)
  | [] => []
  | x :: xs => if x ∈ seen then dedupAux seen xs else x :: dedupAux (x :: seen) xs

/-- Body of `extract_urls` on the character list of the text: protocol/`www` matches
first, then bare-domain matches, each cleaned of trailing punctuation, then
deduplicated keeping first occurrences. -/
def extractCore (s : List Char) : List (List Char) :=
  dedupAux [] ((urlFind s ++ bareFind none s).map stripT)

/-- Model of `link_analyzer.extract_urls` (on an actual string). -/
def extract_urls (text : String) : List String :=
  (extractCore text.toList).map String.mk

/-- Model of `link_analyzer.extract_urls` including the `pd.isna(text)` guard:
a missing value yields `[]`. -/
def extract_urlsOpt : Option String → List String
  | none => []
  | some t => extract_urls t

/-- The cleaned concatenated match list before deduplication (used to state
order/dedup properties of `extract_urls`). -/
def allCleaned (text : String) : List String :=
  ((urlFind text.toList ++ bareFind none text.toList).map stripT).map String.mk

/-! ## `get_link_domain` -/

/-- Model of `link_analyzer.get_link_domain`: strip trailing punctuation, strip one
leading `https?://` (case-insensitive), strip one leading `www.`
(case-insensitive), keep the part before the first `/`, lowercase. -/
def get_link_domain (url : String) : String :=
  if url = "" then ""
  else
    let s₀ := stripT url.toList
    let s₁ :=
      match dropLitCI httpsLit s₀ with
      | some r => r
      | none =>
        match dropLitCI httpLit s₀ with
        | some r => r
        | none => s₀
    let s₂ :=
      match dropLitCI wwwLit s₁ with
      | some r => r
      | none => s₁
    String.mk ((s₂.takeWhile (fun c => c ≠ '/')).map lowerC)

/-- Model of `get_link_domain` including its falsy-`None` guard (`if not url`). -/
def get_link_domainOpt : Option String → String
  | none => ""
  | some u => get_link_domain u

/-! ## `link_risk_score` -/

/-- The loop body of `link_risk_score`: one url updates the running
`(score, reasons)` accumulator.  `get_close_matches(domain, trusted_links,
cutoff=0.75)` is non-empty exactly when the best match at cutoff `3/4`
exists, and `match[0]` is that best match. -/
def linkStep (trusted untrusted fake : List String) (acc : Nat × List String)
    (url : String) : Nat × List String :=
  let domain := get_link_domain url
  if domain = "" then acc
  else if domain ∈ trusted then (acc.1, acc.2 ++ ["Trusted link: " ++ domain])
  else if domain ∈ untrusted then (acc.1 + 5, acc.2 ++ ["Untrustable link: " ++ domain])
  else if domain ∈ fake then (acc.1 + 3, acc.2 ++ ["Fake/similar link: " ++ domain])
  else
    match getCloseMatch domain trusted 3 4 with
    | some m => (acc.1 + 3, acc.2 ++ ["Typosquatting: " ++ domain ++ " is similar to " ++ m])
    | none => (acc.1 + 1, acc.2 ++ ["Unknown link: " ++ domain])

/-- Model of `link_analyzer.link_risk_score`. -/
def link_risk_score (body : String) (trusted untrusted fake : List String) :
    Nat × String :=
  let r := (extract_urls body).foldl (linkStep trusted untrusted fake) (0, [])
  (min r.1 5, String.intercalate "; " r.2)

/-- Per-domain points, as the specification words them (trusted 0, else
untrusted 5, else fake 3, else similarity match at cutoff 0.75 gives 3,
else 1). -/
def linkPts (trusted untrusted fake : List String) (domain : String) : Nat :=
  if domain ∈ trusted then 0
  else if domain ∈ untrusted then 5
  else if domain ∈ fake then 3
  else
    match getCloseMatch domain trusted 3 4 with
    | some _ => 3
    | none => 1

/-- Per-domain reason, as the specification words it. -/
def linkRsn (trusted untrusted fake : List String) (domain : String) : String :=
  if domain ∈ trusted then "Trusted link: " ++ domain
  else if domain ∈ untrusted then "Untrustable link: " ++ domain
  else if domain ∈ fake then "Fake/similar link: " ++ domain
  else
    match getCloseMatch domain trusted 3 4 with
    | some m => "Typosquatting: " ++ domain ++ " is similar to " ++ m
    | none => "Unknown link: " ++ domain

/-- The non-empty normalized domains of the links of a body, in encounter
order. -/
def linkDomains (body : String) : List String :=
  ((extract_urls body).map get_link_domain).filter (fun d => d ≠ "")

/-- Definition of `score_links` as described by the specification: each extracted,
normalized, non-empty link contributes points by precedence, the total is
clamped to 5, and the reasons are joined in link-encounter order. -/
def link_risk_score_spec (body : String) (trusted untrusted fake : List String) :
    Nat × String :=
  (min ((linkDomains body).map (linkPts trusted untrusted fake)).sum 5,
   String.intercalate "; " ((linkDomains body).map (linkRsn trusted untrusted fake)))

/-! ## `analyze_url_domains` -/

/-- One row of the CSV dataset, restricted to the columns the function
reads (`usecols=["label", "urls", "body"]`); `body` may be a missing value. -/
structure Row where
  label : Int
  urls : Int
  body : Option String

/-- The domain-collection loop shared by the trusted (`label=0`) and
untrusted (`label=1`) subsets: all links of every `urls=1` body, normalized,
empty ones discarded, in row-then-link order. -/
def domainsOf (rows : List Row) (lab : Int) : List String :=
  ((rows.filter (fun r => r.label = lab && r.urls = 1)).map
    (fun r => ((extract_urlsOpt r.body).map get_link_domain).filter (fun d => d ≠ ""))).flatten

/-- Count of occurrences of `x` in `l` (`collections.Counter`). -/
def countOcc (l : List String) (x : String) : Nat := (l.filter (fun y => y = x)).length

/-- Stable insertion into a list sorted by strictly decreasing count:
inserts after all elements with a count at least as large. -/
def insertDesc (cnt : String → Nat) (x : String) : List String → List String
  | [] => [x]
  | y :: ys => if cnt x < cnt y then y :: insertDesc cnt x ys else x :: y :: ys

/-- Keys of `Counter(l).most_common(n)`: distinct elements in first-occurrence
order, stably sorted by descending count, first `n` kept.  (`most_common`
is `heapq.nlargest` on the items with the count as key, which is
`sorted(..., reverse=True)` — a stable descending sort — truncated.) -/
def mostCommon (l : List String) (n : Nat) : List String :=
  (((dedupAux [] (l.map String.toList)).map String.mk).foldr
    (insertDesc (countOcc l)) []).take n

/-- Model of `link_analyzer.analyze_url_domains`.  `pandas.read_csv` raising (file
unreadable, or a `usecols` column missing) is modelled by an `Except.error`
input, which the function propagates — it has no handler.  On data it takes
the first 4000 rows and mines the three top-20 domain lists; the fake list
keeps the untrusted occurrences (with multiplicity) that have a similarity
match at cutoff 0.75 into the trusted top-20. -/
def analyze_url_domains (csv : Except String (List Row)) :
    Except String (List String × List String × List String) :=
  match csv with
  | .error e => .error e
  | .ok rows =>
    let df := rows.take 4000
    let trustedDomains := domainsOf df 0
    let topTrusted := mostCommon trustedDomains 20
    let untrustedDomains := domainsOf df 1
    let topUntrusted := mostCommon untrustedDomains 20
    let fakeLinks := untrustedDomains.filter
      (fun d => (getCloseMatch d topTrusted 3 4).isSome)
    let topFake := mostCommon fakeLinks 20
    .ok (topTrusted, topUntrusted, topFake)

/-! ## `project_prototype`: sender-domain scorer -/

/-- The static trusted-domain list of `project_prototype.py`. -/
def TRUSTED_DOMAINS : List String :=
  ["gmail.com", "outlook.com", "yahoo.com", "hotmail.com", "mail.com",
   "edu.com", "gov.sg", "edu.sg"]

/-- Model of `project_prototype.get_domain`: `email.split('@')[-1]`, the substring
after the last `@` (the whole string when there is no `@`). -/
def get_domain (email : String) : String :=
  String.mk ((email.toList.reverse.takeWhile (fun c => c ≠ '@')).reverse)

/-- The token splitter of `get_tokens` (`re.split(r'[.-]', domain)`),
keeping empty pieces as Python does. -/
def splitTokAux (cur : List Char) : List Char → List String
  | [] => [String.mk cur.reverse]
  | c :: rest =>
    if c = '.' || c = '-' then String.mk cur.reverse :: splitTokAux [] rest
    else splitTokAux (c :: cur) rest

/-- Model of `project_prototype.get_tokens`. -/
def get_tokens (domain : String) : List String := splitTokAux [] domain.toList

/-- Model of `project_prototype.is_typosquatting` (`n=1`, default threshold `0.7`):
whether a close trusted domain exists, and which. -/
def is_typosquatting (domain : String) (trusted : List String) :
    Bool × Option String :=
  ((getCloseMatch domain trusted 7 10).isSome, getCloseMatch domain trusted 7 10)

/-- Everything `domain_risk_score_with_reason` does after extracting the
domain.  `top_tokens` is the module-level top-20 suspicious-token list
(mined from the spreadsheet at import time, `[]` when that fails), passed
here as a parameter. -/
def senderScoreOfDomain (top_tokens : List String) (domain : String) :
    Nat × String :=
  let tokens := get_tokens domain
  if domain ∈ TRUSTED_DOMAINS then (0, String.intercalate "; " ["Trusted domain"])
  else
    let st₁ : Nat × List String :=
      match is_typosquatting domain TRUSTED_DOMAINS with
      | (true, some closest) =>
        if domain ≠ closest then
          (1 + 2, ["Not a trusted domain", "Typosquatting: similar to " ++ closest])
        else (1, ["Not a trusted domain"])
      | _ => (1, ["Not a trusted domain"])
    let suspicious := tokens.filter (fun t => t ∈ top_tokens)
    let st₂ : Nat × List String :=
      if suspicious.isEmpty then st₁
      else (st₁.1 + suspicious.length,
        st₁.2 ++ ["Suspicious tokens: " ++ String.intercalate ", " suspicious])
    (min st₂.1 5, String.intercalate "; " st₂.2)

/-- Model of `project_prototype.domain_risk_score_with_reason`. -/
def domain_risk_score_with_reason (top_tokens : List String) (email : String) :
    Nat × String :=
  senderScoreOfDomain top_tokens (get_domain email)

/-- Definition of `score_sender` as described by the specification: trusted domain is
terminal with score 0; otherwise score
`min (1 + (2 if distinct similarity match at cutoff 0.70) + #suspicious tokens) 5`
with the corresponding reasons. -/
def score_sender_spec (top_tokens : List String) (email : String) :
    Nat × String :=
  let domain := get_domain email
  if domain ∈ TRUSTED_DOMAINS then (0, "Trusted domain")
  else
    let typo : Option String :=
      match getCloseMatch domain TRUSTED_DOMAINS 7 10 with
      | some m => if domain ≠ m then some m else none
      | none => none
    let suspicious := (get_tokens domain).filter (fun t => t ∈ top_tokens)
    (min (1 + (if typo.isSome then 2 else 0) + suspicious.length) 5,
     String.intercalate "; "
       (["Not a trusted domain"] ++
        (match typo with
         | some m => ["Typosquatting: similar to " ++ m]
         | none => []) ++
        (if suspicious.isEmpty then []
         else ["Suspicious tokens: " ++ String.intercalate ", " suspicious])))

/-! ## Claim theorems -/

/-- C8: missing or empty inputs degrade to empty results without raising:
`extract_urls` of a missing (`pd.isna`) text is the empty list, and
`get_link_domain` of `None` or of the empty string is the empty string. -/
theorem C8_missing_inputs_degrade :
    extract_urlsOpt none = [] ∧ get_link_domainOpt none = "" ∧
    get_link_domain "" = "" :=
  ⟨rfl, rfl, rfl⟩

/-- C5: `analyze_url_domains` distinguishes failure from emptiness: an
unreadable dataset or missing required columns (a `read_csv` error, which
the function does not catch) propagates as an error and is never turned
into empty lists, while a readable dataset with zero rows yields three
empty lists without error. -/
theorem C5_miner_error_vs_empty :
    (∀ e : String, analyze_url_domains (Except.error e) = Except.error e) ∧
    analyze_url_domains (Except.ok []) = Except.ok ([], [], []) :=
  ⟨fun _ => rfl, rfl⟩

set_option maxRecDepth 40000 in
/-- C2 counterexample: the claim says `extract_urls` output has no two
entries equal after normalization and is in original-text order.  On
`"http://example.com example.com"` the two returned entries both normalize
to `example.com` (deduplication uses the punctuation-stripped raw string,
not the normalized domain), and on `"foo.com see https://bar.com"` the
protocol match `https://bar.com` is returned before `foo.com`, which occurs
earlier in the text. -/
theorem C2_counterexample :
    (extract_urls "http://example.com example.com").map get_link_domain =
      ["example.com", "example.com"] ∧
    extract_urls "foo.com see https://bar.com" =
      ["https://bar.com", "foo.com", "bar.com"] := by
  constructor <;> decide

set_option maxRecDepth 40000 in
/-- C3 counterexample: `get_link_domain` is not idempotent on the valid URL
`"http://www.www.foo.com"`: the first pass strips the protocol and one
`www.` prefix leaving `www.foo.com`, and the second pass strips the next
`www.`. -/
theorem C3_counterexample :
    get_link_domain (get_link_domain "http://www.www.foo.com") ≠
      get_link_domain "http://www.www.foo.com" := by
  decide

set_option maxRecDepth 40000 in
/-- C10 counterexample: the claim as stated covers every email domain with
two or more dot-separated labels, but for `"user@example.com"` the suffix
from the second label (`com`) is a single label, which
`BARE_DOMAIN_PATTERN` cannot match, and the extraction returns nothing at
all. -/
theorem C10_counterexample : extract_urls "user@example.com" = [] := by
  decide

theorem takeWhile_all {p : Char → Bool} :
    ∀ l : List Char, (∀ c ∈ l, p c = true) → l.takeWhile p = l := by
  intro l
  induction l with
  | nil => intro _; rfl
  | cons c cs ih =>
    intro h
    have hc := h c (by simp)
    simp [List.takeWhile_cons, hc, ih (fun x hx => h x (List.mem_cons_of_mem _ hx))]

theorem strMk_toList (s : String) : String.mk s.toList = s := rfl

theorem str_toList_inj {a b : String} (h : a.toList = b.toList) : a = b := by
  have h2 := congrArg String.mk h
  rwa [strMk_toList, strMk_toList] at h2

/-- C7: an input without `@` is scored with the whole string as the domain:
`get_domain` returns the input itself and scoring proceeds through the
normal domain path (it is total — nothing is raised). -/
theorem C7_no_at_scores_whole_string (top_tokens : List String) (email : String)
    (h : '@' ∉ email.toList) :
    get_domain email = email ∧
    domain_risk_score_with_reason top_tokens email =
      senderScoreOfDomain top_tokens email := by
  have hd : get_domain email = email := by
    unfold get_domain
    rw [takeWhile_all email.toList.reverse]
    · rw [List.reverse_reverse]
      exact strMk_toList email
    · intro c hc
      simp only [List.mem_reverse] at hc
      simp only [decide_eq_true_eq]
      intro he
      subst he
      exact h hc
  exact ⟨hd, by unfold domain_risk_score_with_reason; rw [hd]⟩

/-- C7 witness: the concrete no-`@` input `"example.com"`. -/
theorem C7_witness :
    get_domain "example.com" = "example.com" ∧
    domain_risk_score_with_reason [] "example.com" =
      senderScoreOfDomain [] "example.com" :=
  C7_no_at_scores_whole_string [] "example.com" (by decide)

theorem trusted_lowerC_fixed :
    ∀ t ∈ TRUSTED_DOMAINS, t.toList.map lowerC = t.toList := by
  decide

/-- C9: trusted-domain matching in the sender scorer is case-sensitive —
a sender domain that differs from a trusted entry only in letter case
(equal after lowercasing, not equal as written) is not in the trusted list,
the trusted branch is not taken, and the returned score is at least 1. -/
theorem C9_trusted_match_case_sensitive (top_tokens : List String) (email : String)
    (h : ∃ t ∈ TRUSTED_DOMAINS, get_domain email ≠ t ∧
      (get_domain email).toList.map lowerC = t.toList.map lowerC) :
    get_domain email ∉ TRUSTED_DOMAINS ∧
    1 ≤ (domain_risk_score_with_reason top_tokens email).1 := by
  obtain ⟨t, htmem, hne, hlow⟩ := h
  have hnotm : get_domain email ∉ TRUSTED_DOMAINS := by
    intro hm
    have h1 := trusted_lowerC_fixed _ hm
    have h2 := trusted_lowerC_fixed _ htmem
    rw [h1, h2] at hlow
    exact hne (str_toList_inj hlow)
  refine ⟨hnotm, ?_⟩
  show 1 ≤ (senderScoreOfDomain top_tokens (get_domain email)).1
  unfold senderScoreOfDomain is_typosquatting
  rw [if_neg hnotm]
  dsimp only
  rw [Nat.le_min]
  refine ⟨?_, by omega⟩
  cases hm : getCloseMatch (get_domain email) TRUSTED_DOMAINS 7 10 with
  | some m =>
    simp only [hm, Option.isSome_some]
    by_cases he : get_domain email ≠ m
    · rw [if_pos he]
      split <;> dsimp only <;> omega
    · rw [if_neg he]
      split <;> dsimp only <;> omega
  | none =>
    simp only [hm, Option.isSome_none]
    split <;> dsimp only <;> omega

set_option maxRecDepth 40000 in
/-- C9 witness: `"user@Gmail.com"` against the trusted entry `"gmail.com"`. -/
theorem C9_witness :
    get_domain "user@Gmail.com" ∉ TRUSTED_DOMAINS ∧
    1 ≤ (domain_risk_score_with_reason [] "user@Gmail.com").1 :=
  C9_trusted_match_case_sensitive [] "user@Gmail.com"
    ⟨"gmail.com", by decide, by decide, by decide⟩

/-- C6: `domain_risk_score_with_reason` agrees with the specification's
description of `score_sender`: trusted domain is terminal with score 0 and
reason `"Trusted domain"`; otherwise the score starts at 1, adds 2 for a
distinct similarity match at cutoff 0.70 (recording the typosquatting
reason), adds the number of domain tokens found in the suspicious-token
list, and is clamped to 5. -/
theorem C6_sender_score_matches_spec (top_tokens : List String) (email : String) :
    domain_risk_score_with_reason top_tokens email =
      score_sender_spec top_tokens email := by
  unfold domain_risk_score_with_reason senderScoreOfDomain score_sender_spec
    is_typosquatting
  by_cases ht : get_domain email ∈ TRUSTED_DOMAINS
  · rw [if_pos ht, if_pos ht]
    decide
  · rw [if_neg ht, if_neg ht]
    dsimp only
    cases hm : getCloseMatch (get_domain email) TRUSTED_DOMAINS 7 10 with
    | some m =>
      simp only [hm, Option.isSome_some]
      by_cases he : get_domain email ≠ m
      · simp only [if_pos he]
        cases hL : (get_tokens (get_domain email)).filter
            (fun t => decide (t ∈ top_tokens)) with
        | nil => simp
        | cons x xs =>
          refine Prod.ext ?_ ?_
          · show min (1 + 2 + (x :: xs).length) 5 = _
            simp
          · simp
      · rw [not_not] at he
        simp only [he, ne_eq, not_true_eq_false, if_false]
        cases hL : (get_tokens m).filter (fun t => decide (t ∈ top_tokens)) with
        | nil => simp
        | cons x xs =>
          refine Prod.ext ?_ ?_
          · show min (1 + (x :: xs).length) 5 = _
            simp
          · simp
    | none =>
      simp only [hm, Option.isSome_none]
      cases hL : (get_tokens (get_domain email)).filter
          (fun t => decide (t ∈ top_tokens)) with
      | nil => simp
      | cons x xs =>
        refine Prod.ext ?_ ?_
        · show min (1 + (x :: xs).length) 5 = _
          simp
        · simp

theorem foldl_linkStep (t un f : List String) :
    ∀ (urls : List String) (s : Nat) (rs : List String),
      urls.foldl (linkStep t un f) (s, rs) =
        (s + (((urls.map get_link_domain).filter (fun d => d ≠ "")).map
            (linkPts t un f)).sum,
         rs ++ ((urls.map get_link_domain).filter (fun d => d ≠ "")).map
            (linkRsn t un f)) := by
  intro urls
  induction urls with
  | nil => intro s rs; simp
  | cons url urls ih =>
    intro s rs
    rw [List.foldl_cons, List.map_cons]
    by_cases h0 : get_link_domain url = ""
    · rw [List.filter_cons_of_neg (by simp [h0])]
      have hstep : linkStep t un f (s, rs) url = (s, rs) := by
        unfold linkStep
        rw [if_pos h0]
      rw [hstep, ih]
    · rw [List.filter_cons_of_pos (by simp [h0]), List.map_cons, List.map_cons,
        List.sum_cons]
      by_cases h1 : get_link_domain url ∈ t
      · have hstep : linkStep t un f (s, rs) url =
            (s, rs ++ ["Trusted link: " ++ get_link_domain url]) := by
          unfold linkStep
          rw [if_neg h0, if_pos h1]
        have hp : linkPts t un f (get_link_domain url) = 0 := by
          unfold linkPts
          rw [if_pos h1]
        have hr : linkRsn t un f (get_link_domain url) =
            "Trusted link: " ++ get_link_domain url := by
          unfold linkRsn
          rw [if_pos h1]
        rw [hstep, ih, hp, hr]
        exact Prod.ext (by omega) (by simp)
      · by_cases h2 : get_link_domain url ∈ un
        · have hstep : linkStep t un f (s, rs) url =
              (s + 5, rs ++ ["Untrustable link: " ++ get_link_domain url]) := by
            unfold linkStep
            rw [if_neg h0, if_neg h1, if_pos h2]
          have hp : linkPts t un f (get_link_domain url) = 5 := by
            unfold linkPts
            rw [if_neg h1, if_pos h2]
          have hr : linkRsn t un f (get_link_domain url) =
              "Untrustable link: " ++ get_link_domain url := by
            unfold linkRsn
            rw [if_neg h1, if_pos h2]
          rw [hstep, ih, hp, hr]
          exact Prod.ext (by omega) (by simp)
        · by_cases h3 : get_link_domain url ∈ f
          · have hstep : linkStep t un f (s, rs) url =
                (s + 3, rs ++ ["Fake/similar link: " ++ get_link_domain url]) := by
              unfold linkStep
              rw [if_neg h0, if_neg h1, if_neg h2, if_pos h3]
            have hp : linkPts t un f (get_link_domain url) = 3 := by
              unfold linkPts
              rw [if_neg h1, if_neg h2, if_pos h3]
            have hr : linkRsn t un f (get_link_domain url) =
                "Fake/similar link: " ++ get_link_domain url := by
              unfold linkRsn
              rw [if_neg h1, if_neg h2, if_pos h3]
            rw [hstep, ih, hp, hr]
            exact Prod.ext (by omega) (by simp)
          · cases hm : getCloseMatch (get_link_domain url) t 3 4 with
            | some m =>
              have hstep : linkStep t un f (s, rs) url =
                  (s + 3, rs ++ ["Typosquatting: " ++ get_link_domain url ++
                    " is similar to " ++ m]) := by
                unfold linkStep
                rw [if_neg h0, if_neg h1, if_neg h2, if_neg h3, hm]
              have hp : linkPts t un f (get_link_domain url) = 3 := by
                unfold linkPts
                rw [if_neg h1, if_neg h2, if_neg h3, hm]
              have hr : linkRsn t un f (get_link_domain url) =
                  "Typosquatting: " ++ get_link_domain url ++
                    " is similar to " ++ m := by
                unfold linkRsn
                rw [if_neg h1, if_neg h2, if_neg h3, hm]
              rw [hstep, ih, hp, hr]
              exact Prod.ext (by omega) (by simp)
            | none =>
              have hstep : linkStep t un f (s, rs) url =
                  (s + 1, rs ++ ["Unknown link: " ++ get_link_domain url]) := by
                unfold linkStep
                rw [if_neg h0, if_neg h1, if_neg h2, if_neg h3, hm]
              have hp : linkPts t un f (get_link_domain url) = 1 := by
                unfold linkPts
                rw [if_neg h1, if_neg h2, if_neg h3, hm]
              have hr : linkRsn t un f (get_link_domain url) =
                  "Unknown link: " ++ get_link_domain url := by
                unfold linkRsn
                rw [if_neg h1, if_neg h2, if_neg h3, hm]
              rw [hstep, ih, hp, hr]
              exact Prod.ext (by omega) (by simp)

/-- C1: `link_risk_score` realizes exactly the specified per-link scoring:
each extracted, normalized, non-empty link contributes by the precedence
trusted (+0) / untrusted (+5, "Untrustable link") / fake (+3,
"Fake/similar link") / similarity match at cutoff 0.75 (+3,
"Typosquatting: ... is similar to ...") / unknown (+1, "Unknown link"),
the total is clamped, and the reasons are joined in link-encounter order
with `"; "`. -/
theorem C1_link_score_matches_spec (body : String) (t un f : List String) :
    link_risk_score body t un f = link_risk_score_spec body t un f := by
  unfold link_risk_score link_risk_score_spec linkDomains
  rw [foldl_linkStep]
  simp

theorem dedupAux_sublist (seen : List (List Char)) :
    ∀ l, (dedupAux seen l).Sublist l := by
  intro l
  induction l generalizing seen with
  | nil => simp [dedupAux]
  | cons x xs ih =>
    simp only [dedupAux]
    split
    · exact (ih seen).cons x
    · exact (ih (x :: seen)).cons₂ x

theorem dedupAux_mem (x : List Char) :
    ∀ l seen, x ∈ dedupAux seen l ↔ x ∈ l ∧ x ∉ seen := by
  intro l
  induction l with
  | nil => intro seen; simp [dedupAux]
  | cons y ys ih =>
    intro seen
    simp only [dedupAux]
    split
    · next hy =>
      rw [ih seen]
      constructor
      · exact fun h => ⟨List.mem_cons_of_mem y h.1, h.2⟩
      · rintro ⟨h1, h2⟩
        rcases List.mem_cons.mp h1 with h | h
        · exact absurd (h ▸ hy) h2
        · exact ⟨h, h2⟩
    · next hy =>
      rw [List.mem_cons, ih (y :: seen)]
      constructor
      · rintro (rfl | ⟨h1, h2⟩)
        · exact ⟨List.mem_cons_self _ _, hy⟩
        · exact ⟨List.mem_cons_of_mem y h1, fun hx => h2 (List.mem_cons_of_mem y hx)⟩
      · rintro ⟨h1, h2⟩
        by_cases hxy : x = y
        · exact Or.inl hxy
        · have h : x ∈ ys := by
            rcases List.mem_cons.mp h1 with h' | h'
            · exact absurd h' hxy
            · exact h'
          refine Or.inr ⟨h, ?_⟩
          rw [List.mem_cons]
          rintro (h' | h')
          · exact hxy h'
          · exact h2 h'

theorem dedupAux_nodup : ∀ (l : List (List Char)) (seen : List (List Char)),
    (dedupAux seen l).Nodup := by
  intro l
  induction l with
  | nil => intro seen; simp [dedupAux]
  | cons x xs ih =>
    intro seen
    simp only [dedupAux]
    split
    · exact ih seen
    · refine List.Nodup.cons ?_ (ih (x :: seen))
      intro hx
      have := (dedupAux_mem x xs (x :: seen)).mp hx
      exact this.2 (List.mem_cons_self x seen)

theorem strMk_injective : Function.Injective String.mk := by
  intro a b h
  injection h

set_option maxRecDepth 40000 in
/-- Reference first-occurrence deduplication: the head survives and all of
its later duplicates are removed before the rest is deduplicated, so for
every value exactly its first occurrence is kept, in place. -/
def firstDedup {α : Type} [DecidableEq α] : List α → List α
  | [] => []
  | x :: xs => x :: firstDedup (xs.filter (fun y => y ≠ x))
termination_by l => l.length
decreasing_by
  simp only [List.length_cons]
  have hle := List.length_filter_le (fun y => decide (y ≠ x)) xs
  omega

theorem firstDedup_nil {α : Type} [DecidableEq α] :
    firstDedup ([] : List α) = [] := by
  rw [firstDedup]

theorem firstDedup_cons {α : Type} [DecidableEq α] (x : α) (xs : List α) :
    firstDedup (x :: xs) = x :: firstDedup (xs.filter (fun y => y ≠ x)) := by
  rw [firstDedup]

theorem dedupAux_eq_firstDedup : ∀ (l seen : List (List Char)),
    dedupAux seen l = firstDedup (l.filter (fun x => x ∉ seen)) := by
  intro l
  induction l with
  | nil => intro seen; rw [List.filter_nil, firstDedup_nil]; rfl
  | cons x xs ih =>
    intro seen
    simp only [dedupAux]
    split
    · next hx =>
      rw [List.filter_cons_of_neg (by simp [hx])]
      exact ih seen
    · next hx =>
      rw [List.filter_cons_of_pos (by simp [hx]), firstDedup_cons, ih (x :: seen)]
      congr 1
      rw [List.filter_filter]
      congr 1
      apply List.filter_congr
      intro y _
      simp only [List.mem_cons, decide_not]
      by_cases hyx : y = x
      · simp [hyx]
      · simp [hyx]

theorem map_filter_ne (x : List Char) : ∀ xs : List (List Char),
    (xs.filter (fun y => y ≠ x)).map String.mk =
      (xs.map String.mk).filter (fun y => y ≠ String.mk x) := by
  intro xs
  induction xs with
  | nil => rfl
  | cons y ys ih =>
    by_cases hyx : y = x
    · rw [List.filter_cons_of_neg (by simp [hyx]), List.map_cons,
        List.filter_cons_of_neg (by simp [hyx]), ih]
    · rw [List.filter_cons_of_pos (by simp [hyx]), List.map_cons, List.map_cons,
        List.filter_cons_of_pos (by simp; exact fun h => hyx (strMk_injective h)),
        ih]

theorem map_firstDedup : ∀ (l : List (List Char)),
    (firstDedup l).map String.mk = firstDedup (l.map String.mk) := by
  suffices main : ∀ n (l : List (List Char)), l.length ≤ n →
      (firstDedup l).map String.mk = firstDedup (l.map String.mk) from
    fun l => main l.length l le_rfl
  intro n
  induction n with
  | zero =>
    intro l hl
    have hnil : l = [] := List.eq_nil_of_length_eq_zero (Nat.le_zero.mp hl)
    subst hnil
    simp [firstDedup_nil]
  | succ n ih =>
    intro l hl
    cases l with
    | nil => simp [firstDedup_nil]
    | cons x xs =>
      simp only [List.length_cons] at hl
      rw [firstDedup_cons, List.map_cons, List.map_cons, firstDedup_cons]
      congr 1
      rw [ih _ (le_trans (List.length_filter_le _ xs) (by omega)),
        map_filter_ne]

/-- C2, amended: `extract_urls` equals the first-occurrence deduplication
of the cleaned match list — all URL-pattern matches in text order followed
by all bare-domain matches in text order, each stripped of trailing
punctuation, with exactly the first occurrence of every raw string kept —
and in particular it has no duplicate entries.  (As stated the claim
fails: entries equal only after normalization are kept, and a bare domain
occurring before a protocol URL is listed after it.) -/
theorem C2_amended_dedup_raw_order (text : String) :
    extract_urls text = firstDedup (allCleaned text) ∧
    (extract_urls text).Nodup := by
  constructor
  · show ((dedupAux [] ((urlFind text.toList ++ bareFind none text.toList).map
        stripT)).map String.mk) = _
    rw [dedupAux_eq_firstDedup]
    have hfil : ∀ L : List (List Char),
        L.filter (fun x => x ∉ ([] : List (List Char))) = L := by
      intro L
      induction L with
      | nil => rfl
      | cons y ys ihy => rw [List.filter_cons_of_pos (by simp), ihy]
    rw [hfil, map_firstDedup]
    rfl
  · exact (dedupAux_nodup _ []).map_on
      (fun a _ b _ h => strMk_injective h)

def upperChars : List Char :=
  ['A', 'B', 'C', 'D', 'E', 'F', 'G', 'H', 'I', 'J', 'K', 'L', 'M',
   'N', 'O', 'P', 'Q', 'R', 'S', 'T', 'U', 'V', 'W', 'X', 'Y', 'Z']

def lowChars : List Char :=
  ['a', 'b', 'c', 'd', 'e', 'f', 'g', 'h', 'i', 'j', 'k', 'l', 'm',
   'n', 'o', 'p', 'q', 'r', 's', 't', 'u', 'v', 'w', 'x', 'y', 'z']

theorem lowerC_of_not_upper {c : Char} (h : c ∉ upperChars) : lowerC c = c := by
  unfold lowerC
  repeat rw [if_neg (fun he => h (by rw [he]; decide))]

theorem lowerC_mem_low {c : Char} (h : c ∈ upperChars) : lowerC c ∈ lowChars := by
  fin_cases h <;> decide

theorem lowerC_ne_slash {c : Char} (h : c ≠ '/') : lowerC c ≠ '/' := by
  by_cases hm : c ∈ upperChars
  · have hl := lowerC_mem_low hm
    intro he
    rw [he] at hl
    revert hl
    decide
  · rw [lowerC_of_not_upper hm]
    exact h

theorem lowerC_idem (c : Char) : lowerC (lowerC c) = lowerC c := by
  by_cases hm : c ∈ upperChars
  · have hl := lowerC_mem_low hm
    apply lowerC_of_not_upper
    intro hu
    have hd : ∀ d ∈ lowChars, d ∉ upperChars := by decide
    exact hd _ hl hu
  · rw [lowerC_of_not_upper hm, lowerC_of_not_upper hm]

theorem dropLitCI_slash_none : ∀ (lit l : List Char), '/' ∈ lit →
    (∀ c ∈ l, c ≠ '/') → dropLitCI lit l = none := by
  intro lit
  induction lit with
  | nil => intro l h _; simp at h
  | cons x ls ih =>
    intro l hx hl
    cases l with
    | nil => rfl
    | cons c cs =>
      simp only [dropLitCI]
      by_cases hcx : lowerC c = lowerC x
      · rw [if_pos hcx]
        rcases List.mem_cons.mp hx with heq | hmem
        · exfalso
          have hcsl : lowerC c = '/' := by
            rw [hcx, ← heq]
            decide
          exact lowerC_ne_slash (hl c (List.mem_cons_self _ _)) hcsl
        · exact ih cs hmem (fun d hd => hl d (List.mem_cons_of_mem c hd))
      · rw [if_neg hcx]

theorem get_link_domain_toList (u : String) (hu : ¬(u = "")) :
    ∃ s : List Char, (get_link_domain u).toList = s.map lowerC ∧
      ∀ c ∈ s, c ≠ '/' := by
  unfold get_link_domain
  rw [if_neg hu]
  refine ⟨_, rfl, ?_⟩
  intro c hc
  have hp := List.mem_takeWhile_imp hc
  simpa using hp

/-- C3, amended: `get_link_domain` is idempotent on every URL whose
first-pass result is unchanged by trailing-punctuation stripping and does
not begin with a case-insensitive `www.` prefix.  (As stated the claim
fails: a second `www.` prefix, or an inner trailing dot kept before a `/`,
survives the first pass and is stripped by the second.) -/
theorem C3_amended_idempotent (u : String)
    (h1 : stripT (get_link_domain u).toList = (get_link_domain u).toList)
    (h2 : dropLitCI wwwLit (get_link_domain u).toList = none) :
    get_link_domain (get_link_domain u) = get_link_domain u := by
  by_cases hu : u = ""
  · subst hu
    rfl
  by_cases hd : get_link_domain u = ""
  · rw [hd]
    rfl
  obtain ⟨s, hs, hns⟩ := get_link_domain_toList u hu
  have hchars : ∀ c ∈ (get_link_domain u).toList, c ≠ '/' := by
    rw [hs]
    intro c hc
    obtain ⟨c', hc', rfl⟩ := List.mem_map.mp hc
    exact lowerC_ne_slash (hns c' hc')
  rw [show get_link_domain u = get_link_domain u from rfl] at hd
  generalize hgen : get_link_domain u = d at h1 h2 hd hchars hs ⊢
  unfold get_link_domain
  rw [if_neg hd, h1]
  dsimp only
  rw [dropLitCI_slash_none httpsLit _ (by decide) hchars,
    dropLitCI_slash_none httpLit _ (by decide) hchars, h2]
  dsimp only
  rw [takeWhile_all _ (fun c hc => decide_eq_true (hchars c hc))]
  rw [hs, List.map_map]
  have hcomp : lowerC ∘ lowerC = lowerC := funext lowerC_idem
  rw [hcomp, ← hs]
  exact strMk_toList _

set_option maxRecDepth 40000 in
/-- C3 amended witness: `"https://WWW.Example.com/path."` normalizes to
`"example.com"`, which satisfies both side conditions, and a second
application leaves it unchanged. -/
theorem C3_amended_witness :
    stripT (get_link_domain "https://WWW.Example.com/path.").toList =
      (get_link_domain "https://WWW.Example.com/path.").toList ∧
    dropLitCI wwwLit (get_link_domain "https://WWW.Example.com/path.").toList =
      none ∧
    get_link_domain (get_link_domain "https://WWW.Example.com/path.") =
      get_link_domain "https://WWW.Example.com/path." :=
  ⟨by decide, by decide, C3_amended_idempotent _ (by decide) (by decide)⟩

/-! ## Appending a space-separated suffix

No class of either pattern contains a space and no literal does, so no
match can span a space: scanning `xs ++ ' ' :: u` behaves on the `xs` part
exactly as scanning `xs` alone, and then continues into `u`.  These lemmas
make that precise; they drive the monotonicity claim about appending one
more link to a body. -/

theorem runLen_append_sp {p : Char → Bool} (hp : p ' ' = false) :
    ∀ (xs u : List Char), runLen p (xs ++ ' ' :: u) = runLen p xs := by
  intro xs u
  induction xs with
  | nil => simp [runLen, hp]
  | cons c cs ih =>
    simp only [List.cons_append, runLen]
    split
    · show runLen p (cs ++ ' ' :: u) + 1 = runLen p cs + 1
      rw [ih]
    · rfl

theorem letterEnd_append_sp (xs u : List Char) :
    letterEnd (xs ++ ' ' :: u) = letterEnd xs := by
  unfold letterEnd
  rw [runLen_append_sp (by decide)]
  have hm := runLen_le isAsciiLetter xs
  rw [List.drop_append_of_le_length hm]
  cases hd : xs.drop (runLen isAsciiLetter xs) with
  | nil =>
    have hw : isWordChar ' ' = false := by decide
    simp [hw]
  | cons c r => simp

theorem bareTail_append_sp : ∀ (xs u : List Char),
    bareTail (xs ++ ' ' :: u) = bareTail xs := by
  suffices main : ∀ len (xs : List Char), xs.length ≤ len → ∀ u,
      bareTail (xs ++ ' ' :: u) = bareTail xs from
    fun xs u => main xs.length xs le_rfl u
  intro len
  induction len with
  | zero =>
    intro xs hxs u
    have hnil : xs = [] := List.eq_nil_of_length_eq_zero (Nat.le_zero.mp hxs)
    subst hnil
    rw [bareTail_eq, bareTail_eq]
    simp [runLen, isLabelChar]
  | succ L ih =>
    intro xs hxs u
    rw [bareTail_eq (xs ++ ' ' :: u), bareTail_eq xs,
      runLen_append_sp (by decide)]
    by_cases h0 : runLen isLabelChar xs = 0
    · simp [h0]
    · simp only [h0, if_false]
      have hr := runLen_le isLabelChar xs
      rw [List.drop_append_of_le_length hr]
      cases hd : xs.drop (runLen isLabelChar xs) with
      | nil =>
        dsimp only [List.nil_append]
        by_cases hsp : (' ' : Char) = '.'
        · exact absurd hsp (by decide)
        · simp [hsp]
      | cons c r =>
        dsimp only [List.cons_append]
        by_cases hc : c = '.'
        · subst hc
          simp only [if_pos rfl]
          have hlen : (xs.drop (runLen isLabelChar xs)).length =
              xs.length - runLen isLabelChar xs := by simp
          rw [hd] at hlen
          simp only [List.length_cons] at hlen
          rw [ih r (by omega) u, letterEnd_append_sp]
        · simp [hc]

theorem dropLit_some_append : ∀ (lit xs r ys : List Char),
    dropLit lit xs = some r → dropLit lit (xs ++ ys) = some (r ++ ys) := by
  intro lit
  induction lit with
  | nil =>
    intro xs r ys h
    simp only [dropLit, Option.some.injEq] at h
    subst h
    rfl
  | cons l ls ih =>
    intro xs r ys h
    cases xs with
    | nil => exact absurd h (by simp [dropLit])
    | cons c cs =>
      simp only [dropLit] at h
      split at h
      · next hc =>
        show dropLit (l :: ls) (c :: (cs ++ ys)) = some (r ++ ys)
        simp only [dropLit, if_pos hc]
        exact ih cs r ys h
      · exact absurd h (by simp)

theorem dropLit_none_append_sp : ∀ (lit xs u : List Char), (' ' ∉ lit) →
    dropLit lit xs = none → dropLit lit (xs ++ ' ' :: u) = none := by
  intro lit
  induction lit with
  | nil => intro xs u _ h; exact absurd h (by simp [dropLit])
  | cons l ls ih =>
    intro xs u hsp h
    cases xs with
    | nil =>
      simp only [List.nil_append, dropLit]
      rw [if_neg]
      intro he
      exact hsp (by rw [he]; exact List.mem_cons_self _ _)
    | cons c cs =>
      simp only [dropLit] at h
      split at h
      · next hc =>
        show dropLit (l :: ls) (c :: (cs ++ ' ' :: u)) = none
        simp only [dropLit, if_pos hc]
        exact ih cs u (fun hm => hsp (List.mem_cons_of_mem l hm)) h
      · next hc =>
        show dropLit (l :: ls) (c :: (cs ++ ' ' :: u)) = none
        simp only [dropLit, if_neg hc]

theorem altMatch_append_sp {lit : List Char} (hsp : (' ' : Char) ∉ lit)
    (xs u : List Char) :
    altMatch lit (xs ++ ' ' :: u) =
      (altMatch lit xs).map (fun p => (p.1, p.2 ++ ' ' :: u)) := by
  unfold altMatch
  cases hd : dropLit lit xs with
  | none =>
    rw [dropLit_none_append_sp lit xs u hsp hd]
    rfl
  | some rest =>
    rw [dropLit_some_append lit xs rest (' ' :: u) hd]
    dsimp only
    rw [runLen_append_sp (by decide)]
    by_cases h0 : runLen isUrlChar rest = 0
    · simp [h0]
    · simp only [h0, if_false]
      have hr := runLen_le isUrlChar rest
      rw [List.take_append_of_le_length hr, List.drop_append_of_le_length hr]
      rfl

theorem urlAt_append_sp (xs u : List Char) :
    urlAt (xs ++ ' ' :: u) = (urlAt xs).map (fun p => (p.1, p.2 ++ ' ' :: u)) := by
  unfold urlAt
  rw [altMatch_append_sp (by decide), altMatch_append_sp (by decide),
    altMatch_append_sp (by decide)]
  cases altMatch httpsLit xs with
  | some p => rfl
  | none =>
    cases altMatch httpLit xs with
    | some p => rfl
    | none => rfl

theorem urlFind_append_sp : ∀ (xs u : List Char),
    urlFind (xs ++ ' ' :: u) = urlFind xs ++ urlFind (' ' :: u) := by
  suffices main : ∀ len (xs : List Char), xs.length ≤ len → ∀ u,
      urlFind (xs ++ ' ' :: u) = urlFind xs ++ urlFind (' ' :: u) from
    fun xs u => main xs.length xs le_rfl u
  intro len
  induction len with
  | zero =>
    intro xs hxs u
    have hnil : xs = [] := List.eq_nil_of_length_eq_zero (Nat.le_zero.mp hxs)
    subst hnil
    rw [urlFind_nil, List.nil_append, List.nil_append]
  | succ L ih =>
    intro xs hxs u
    cases xs with
    | nil => rw [urlFind_nil, List.nil_append, List.nil_append]
    | cons c cs =>
      rw [List.cons_append]
      cases hm : urlAt (c :: cs) with
      | some p =>
        cases p with
        | mk m r =>
          have hext : urlAt (c :: (cs ++ ' ' :: u)) = some (m, r ++ ' ' :: u) := by
            have h2 := urlAt_append_sp (c :: cs) u
            rw [List.cons_append] at h2
            rw [h2, hm]
            rfl
          have hlt := urlAt_length hm
          simp only [List.length_cons] at hlt hxs
          rw [urlFind_cons_some hext, urlFind_cons_some hm, ih r (by omega) u,
            List.cons_append]
      | none =>
        have hext : urlAt (c :: (cs ++ ' ' :: u)) = none := by
          have h2 := urlAt_append_sp (c :: cs) u
          rw [List.cons_append] at h2
          rw [h2, hm]
          rfl
        simp only [List.length_cons] at hxs
        rw [urlFind_cons_none hext, urlFind_cons_none hm]
        exact ih cs (by omega) u

theorem bareFind_sp_cons (p : Option Char) (u : List Char) :
    bareFind p (' ' :: u) = bareFind (some ' ') u := by
  rw [bareFind_cons]
  have hbt : bareTail (' ' :: u) = none := by
    rw [bareTail_eq]
    have hl : isLabelChar ' ' = false := by decide
    simp [runLen, hl]
  by_cases hcond : p ≠ some '@' ∧ isWordOpt p ≠ isWordChar ' '
  · rw [if_pos hcond, hbt]
  · rw [if_neg hcond]

theorem bareFind_append_sp : ∀ (xs u : List Char) (p : Option Char),
    bareFind p (xs ++ ' ' :: u) = bareFind p xs ++ bareFind (some ' ') u := by
  suffices main : ∀ len (xs : List Char), xs.length ≤ len → ∀ u p,
      bareFind p (xs ++ ' ' :: u) = bareFind p xs ++ bareFind (some ' ') u from
    fun xs u p => main xs.length xs le_rfl u p
  intro len
  induction len with
  | zero =>
    intro xs hxs u p
    have hnil : xs = [] := List.eq_nil_of_length_eq_zero (Nat.le_zero.mp hxs)
    subst hnil
    rw [List.nil_append, bareFind_sp_cons, bareFind_nil, List.nil_append]
  | succ L ih =>
    intro xs hxs u p
    cases xs with
    | nil => rw [List.nil_append, bareFind_sp_cons, bareFind_nil, List.nil_append]
    | cons c cs =>
      simp only [List.length_cons] at hxs
      rw [List.cons_append, bareFind_cons, bareFind_cons]
      have hbt := bareTail_append_sp (c :: cs) u
      rw [List.cons_append] at hbt
      by_cases hcond : p ≠ some '@' ∧ isWordOpt p ≠ isWordChar c
      · rw [if_pos hcond, if_pos hcond, hbt]
        cases hm : bareTail (c :: cs) with
        | some n =>
          dsimp only
          have hb := bareTail_bounds _ _ hm
          simp only [List.length_cons] at hb
          have hn : n ≤ (c :: cs).length := by
            simp only [List.length_cons]
            omega
          have ht : (c :: (cs ++ ' ' :: u)).take n = (c :: cs).take n := by
            have h2 : ((c :: cs) ++ ' ' :: u).take n = (c :: cs).take n :=
              List.take_append_of_le_length hn
            rw [List.cons_append] at h2
            exact h2
          have hdp : (c :: (cs ++ ' ' :: u)).drop n = (c :: cs).drop n ++ ' ' :: u := by
            have h2 : ((c :: cs) ++ ' ' :: u).drop n = (c :: cs).drop n ++ ' ' :: u :=
              List.drop_append_of_le_length hn
            rw [List.cons_append] at h2
            exact h2
          have hdl : ((c :: cs).drop n).length ≤ L := by
            simp only [List.length_drop, List.length_cons]
            omega
          rw [ht, hdp, ih ((c :: cs).drop n) hdl u _, List.cons_append]
        | none =>
          dsimp only
          exact ih cs (by omega) u (some c)
      · rw [if_neg hcond, if_neg hcond]
        exact ih cs (by omega) u (some c)

theorem extract_urls_subset_append (body u : String) :
    ∀ x ∈ extract_urls body, x ∈ extract_urls (body ++ " " ++ u) := by
  intro x hx
  have htl : (body ++ " " ++ u).toList = body.toList ++ ' ' :: u.toList := by
    simp [String.data_append, String.toList]
  unfold extract_urls extractCore at hx ⊢
  rw [htl, urlFind_append_sp, bareFind_append_sp]
  rw [List.mem_map] at hx ⊢
  obtain ⟨a, ha, rfl⟩ := hx
  refine ⟨a, ?_, rfl⟩
  rw [dedupAux_mem] at ha ⊢
  refine ⟨?_, by simp⟩
  have ham := ha.1
  rw [List.mem_map] at ham ⊢
  obtain ⟨b, hb, rfl⟩ := ham
  refine ⟨b, ?_, rfl⟩
  simp only [List.mem_append] at hb ⊢
  tauto

theorem sum_le_of_subperm {l₁ l₂ : List Nat} (h : List.Subperm l₁ l₂) :
    l₁.sum ≤ l₂.sum := by
  have hm : (l₁ : Multiset Nat) ≤ (l₂ : Multiset Nat) := Multiset.coe_le.mpr h
  obtain ⟨w, hw⟩ := Multiset.le_iff_exists_add.mp hm
  have hsum : (l₂ : Multiset Nat).sum = (l₁ : Multiset Nat).sum + w.sum := by
    rw [hw, Multiset.sum_add]
  simp only [Multiset.sum_coe] at hsum
  omega

theorem subperm_map_filter {l₁ l₂ : List String} (f : String → String)
    (p : String → Bool) (h : List.Subperm l₁ l₂) :
    List.Subperm ((l₁.map f).filter p) ((l₂.map f).filter p) := by
  have hm : (l₁ : Multiset String) ≤ (l₂ : Multiset String) := Multiset.coe_le.mpr h
  have h3 : Multiset.map f (l₁ : Multiset String) ≤
      Multiset.map f (l₂ : Multiset String) := Multiset.map_le_map hm
  have h2 := Multiset.filter_le_filter (fun x => p x = true) h3
  rw [← Multiset.coe_le]
  simpa using h2

theorem subperm_map_pts {l₁ l₂ : List String} (g : String → Nat)
    (h : List.Subperm l₁ l₂) : List.Subperm (l₁.map g) (l₂.map g) := by
  have hm : (l₁ : Multiset String) ≤ (l₂ : Multiset String) := Multiset.coe_le.mpr h
  have h2 : Multiset.map g (l₁ : Multiset String) ≤
      Multiset.map g (l₂ : Multiset String) := Multiset.map_le_map hm
  rw [← Multiset.coe_le]
  simpa using h2

theorem link_risk_score_fst (body : String) (t un f : List String) :
    (link_risk_score body t un f).1 =
      min ((linkDomains body).map (linkPts t un f)).sum 5 := by
  unfold link_risk_score linkDomains
  rw [foldl_linkStep]
  simp

theorem linkDomains_subperm (body u : String) :
    List.Subperm (linkDomains body) (linkDomains (body ++ " " ++ u)) := by
  unfold linkDomains
  apply subperm_map_filter
  apply List.subperm_of_subset
  · exact (dedupAux_nodup _ []).map_on (fun a _ b _ h => strMk_injective h)
  · exact extract_urls_subset_append body u

/-- C4: `link_risk_score` is monotonic and saturating — appending one more
untrusted link (space-separated) to the body never decreases the returned
score, and the returned score is clamped to at most 5 (it is a natural
number, so it lies in `[0, 5]`). -/
theorem C4_monotone_clamped (body u : String) (t un f : List String)
    (h_untrusted : get_link_domain u ∈ un) :
    (link_risk_score body t un f).1 ≤
      (link_risk_score (body ++ " " ++ u) t un f).1 ∧
    (link_risk_score body t un f).1 ≤ 5 := by
  constructor
  · rw [link_risk_score_fst, link_risk_score_fst]
    refine min_le_min ?_ le_rfl
    exact sum_le_of_subperm
      (subperm_map_pts (linkPts t un f) (linkDomains_subperm body u))
  · rw [link_risk_score_fst]
    exact Nat.min_le_right _ _

set_option maxRecDepth 40000 in
/-- C4 witness: appending the untrusted link `"evil.com"` to the body
`"x"`. -/
theorem C4_witness :
    (link_risk_score "x" [] ["evil.com"] []).1 ≤
      (link_risk_score ("x" ++ " " ++ "evil.com") [] ["evil.com"] []).1 ∧
    (link_risk_score "x" [] ["evil.com"] []).1 ≤ 5 :=
  C4_monotone_clamped "x" "evil.com" [] ["evil.com"] [] (by decide)

/-! ## Bare-domain extraction of the suffix after the `@` lookbehind -/

/-- List `bs.foldr (fun b acc => b ++ '.' :: acc) t`: dotted labels `bs` in
front of the final label `t` — the shape of a bare domain with at least two
labels when `bs ≠ []`. -/
def dotJoin (bs : List (List Char)) (t : List Char) : List Char :=
  bs.foldr (fun b acc => b ++ '.' :: acc) t

theorem alnum_isLabel {c : Char} (h : c.isAlphanum = true) :
    isLabelChar c = true := by
  simp [isLabelChar, h]

theorem alnum_isWord {c : Char} (h : c.isAlphanum = true) :
    isWordChar c = true := by
  simp [isWordChar, h]

theorem alpha_isLabel {c : Char} (h : isAsciiLetter c = true) :
    isLabelChar c = true := by
  simp only [isAsciiLetter] at h
  simp [isLabelChar, Char.isAlphanum, h]

theorem runLen_all {p : Char → Bool} : ∀ xs : List Char,
    (∀ c ∈ xs, p c = true) → runLen p xs = xs.length := by
  intro xs
  induction xs with
  | nil => intro _; rfl
  | cons c cs ih =>
    intro h
    simp only [runLen, List.length_cons, h c (List.mem_cons_self _ _), if_true,
      ih (fun d hd => h d (List.mem_cons_of_mem c hd))]

theorem runLen_all_append {p : Char → Bool} (xs : List Char) (y : Char)
    (ys : List Char) (hall : ∀ c ∈ xs, p c = true) (hy : p y = false) :
    runLen p (xs ++ y :: ys) = xs.length := by
  induction xs with
  | nil => simp [runLen, hy]
  | cons c cs ih =>
    simp only [List.cons_append, runLen, hall c (List.mem_cons_self _ _),
      if_true, List.length_cons]
    show runLen p (cs ++ y :: ys) + 1 = cs.length + 1
    rw [ih (fun d hd => hall d (List.mem_cons_of_mem c hd))]

theorem letterEnd_all (t : List Char) (hlen : 2 ≤ t.length)
    (hall : ∀ c ∈ t, isAsciiLetter c = true) : letterEnd t = some t.length := by
  unfold letterEnd
  rw [runLen_all t hall]
  rw [if_pos hlen, List.drop_length]

theorem bareTail_none_of_head {c : Char} (rest : List Char)
    (h : isLabelChar c = false) : bareTail (c :: rest) = none := by
  rw [bareTail_eq]
  simp [runLen, h]

theorem bareTail_alnum_at (l rest : List Char) (hl : l ≠ [])
    (hall : ∀ c ∈ l, c.isAlphanum = true) : bareTail (l ++ '@' :: rest) = none := by
  rw [bareTail_eq]
  rw [runLen_all_append l '@' rest (fun c hc => alnum_isLabel (hall c hc)) (by decide)]
  have h0 : l.length ≠ 0 := fun h => hl (List.eq_nil_of_length_eq_zero h)
  rw [if_neg h0, List.drop_left]
  dsimp only
  rw [if_neg (by decide : ¬('@' : Char) = '.')]

theorem bareTail_dotJoin : ∀ (bs : List (List Char)) (t : List Char),
    (∀ b ∈ bs, b ≠ [] ∧ ∀ c ∈ b, c.isAlphanum = true) →
    bs ≠ [] → 2 ≤ t.length → (∀ c ∈ t, isAsciiLetter c = true) →
    bareTail (dotJoin bs t) = some (dotJoin bs t).length := by
  intro bs
  induction bs with
  | nil => intro t _ hne; exact absurd rfl hne
  | cons b bs ih =>
    intro t hall _ hlen halpha
    obtain ⟨hbne, hbal⟩ := hall b (List.mem_cons_self _ _)
    have hjoin : dotJoin (b :: bs) t = b ++ '.' :: dotJoin bs t := rfl
    rw [hjoin, bareTail_eq]
    rw [runLen_all_append b '.' (dotJoin bs t)
      (fun c hc => alnum_isLabel (hbal c hc)) (by decide)]
    have h0 : b.length ≠ 0 := fun h => hbne (List.eq_nil_of_length_eq_zero h)
    rw [if_neg h0, List.drop_left]
    cases bs with
    | nil =>
      have hbt : bareTail (dotJoin [] t) = none := by
        show bareTail t = none
        rw [bareTail_eq]
        rw [runLen_all t (fun c hc => alpha_isLabel (halpha c hc))]
        by_cases ht0 : t.length = 0
        · simp [ht0]
        · rw [if_neg ht0, List.drop_length]
      dsimp only
      rw [if_pos rfl, hbt]
      show (match letterEnd (dotJoin [] t) with
        | some m => some (b.length + 1 + m)
        | none => none) = some (b ++ '.' :: dotJoin [] t).length
      rw [show dotJoin [] t = t from rfl, letterEnd_all t hlen halpha]
      simp only [Option.some.injEq, List.length_append, List.length_cons]
      omega
    | cons b₂ bs₂ =>
      dsimp only
      rw [if_pos rfl, ih t (fun x hx => hall x (List.mem_cons_of_mem b hx))
        (by simp) hlen halpha]
      simp only [Option.some.injEq, List.length_append, List.length_cons]
      omega

theorem word_ne_at {w : Char} (hw : isWordChar w = true) : w ≠ '@' := by
  intro he
  rw [he] at hw
  exact absurd hw (by decide)

theorem bareFind_skip_word : ∀ (l : List Char),
    (∀ c ∈ l, isWordChar c = true) → ∀ (w : Char), isWordChar w = true →
    ∀ rest, bareFind (some w) (l ++ rest) = bareFind (some (l.getLastD w)) rest := by
  intro l
  induction l with
  | nil => intro _ w _ rest; rfl
  | cons c cs ih =>
    intro hall w hw rest
    rw [List.cons_append, bareFind_cons]
    have hbound : ¬(some w ≠ some '@' ∧
        isWordOpt (some w) ≠ isWordChar c) := by
      rintro ⟨-, hb⟩
      exact hb (by
        show isWordChar w = isWordChar c
        rw [hw, hall c (List.mem_cons_self _ _)])
    rw [if_neg hbound]
    rw [ih (fun d hd => hall d (List.mem_cons_of_mem c hd))
      c (hall c (List.mem_cons_self _ _)) rest]
    rw [List.getLastD_cons]

theorem bareFind_at_sign {w : Char} (hw : isWordChar w = true) (rest : List Char) :
    bareFind (some w) ('@' :: rest) = bareFind (some '@') rest := by
  rw [bareFind_cons]
  have hcond : (some w ≠ some '@' ∧ isWordOpt (some w) ≠ isWordChar '@') := by
    refine ⟨by simpa using word_ne_at hw, ?_⟩
    show isWordChar w ≠ isWordChar '@'
    rw [hw]
    decide
  rw [if_pos hcond, bareTail_none_of_head rest (by decide)]

theorem bareFind_blocked {c : Char} (rest : List Char) :
    bareFind (some '@') (c :: rest) = bareFind (some c) rest := by
  rw [bareFind_cons]
  rw [if_neg (by simp)]

theorem bareFind_dot {w : Char} (hw : isWordChar w = true) (rest : List Char) :
    bareFind (some w) ('.' :: rest) = bareFind (some '.') rest := by
  rw [bareFind_cons]
  have hcond : (some w ≠ some '@' ∧ isWordOpt (some w) ≠ isWordChar '.') := by
    refine ⟨by simpa using word_ne_at hw, ?_⟩
    show isWordChar w ≠ isWordChar '.'
    rw [hw]
    decide
  rw [if_pos hcond, bareTail_none_of_head rest (by decide)]

theorem getLastD_alnum {l : List Char} {d : Char}
    (hall : ∀ c ∈ l, c.isAlphanum = true) (hd : d.isAlphanum = true) :
    (l.getLastD d).isAlphanum = true := by
  induction l generalizing d with
  | nil => exact hd
  | cons c cs ih =>
    rw [List.getLastD_cons]
    exact ih (fun x hx => hall x (List.mem_cons_of_mem c hx))
      (hall c (List.mem_cons_self _ _))

theorem bareFind_domain_head (bs : List (List Char)) (t : List Char)
    (hbs : ∀ b ∈ bs, b ≠ [] ∧ ∀ c ∈ b, c.isAlphanum = true) (hne : bs ≠ [])
    (hlen : 2 ≤ t.length) (halpha : ∀ c ∈ t, isAsciiLetter c = true) :
    dotJoin bs t ∈ bareFind (some '.') (dotJoin bs t) := by
  have hbt := bareTail_dotJoin bs t hbs hne hlen halpha
  cases hbsc : bs with
  | nil => exact absurd hbsc hne
  | cons b bs₂ =>
    subst hbsc
    obtain ⟨hbne, hbal⟩ := hbs b (List.mem_cons_self _ _)
    cases hbc : b with
    | nil => exact absurd hbc hbne
    | cons c₂ bb =>
      subst hbc
      have hshape : dotJoin ((c₂ :: bb) :: bs₂) t =
          c₂ :: (bb ++ '.' :: dotJoin bs₂ t) := rfl
      rw [hshape, bareFind_cons]
      have hcond : (some '.' ≠ some '@' ∧
          isWordOpt (some '.') ≠ isWordChar c₂) := by
        refine ⟨by simp, ?_⟩
        show isWordChar '.' ≠ isWordChar c₂
        rw [alnum_isWord (hbal c₂ (List.mem_cons_self _ _))]
        decide
      rw [if_pos hcond]
      rw [hshape] at hbt
      rw [hbt]
      dsimp only
      have hfull : (c₂ :: (bb ++ '.' :: dotJoin bs₂ t)).take
          (c₂ :: (bb ++ '.' :: dotJoin bs₂ t)).length =
          c₂ :: (bb ++ '.' :: dotJoin bs₂ t) := List.take_length _
      rw [hfull]
      exact List.mem_cons_self _ _

theorem dotJoin_decomp : ∀ (bs : List (List Char)) (t : List Char),
    ∃ pre, dotJoin bs t = pre ++ t := by
  intro bs
  induction bs with
  | nil => exact fun t => ⟨[], rfl⟩
  | cons b bs ih =>
    intro t
    obtain ⟨pre, hp⟩ := ih t
    refine ⟨b ++ '.' :: pre, ?_⟩
    show b ++ '.' :: dotJoin bs t = (b ++ '.' :: pre) ++ t
    rw [hp]
    simp

theorem stripT_fix {s : List Char}
    (h : ∀ c, s.getLast? = some c → isTrailPunct c = false ∧ c ≠ '\n') :
    stripT s = s := by
  unfold stripT
  cases hg : s.getLast? with
  | none =>
    rw [if_neg (by simp)]
    unfold dropRunEnd
    have hnil : s = [] := by
      cases hs : s with
      | nil => rfl
      | cons x xs =>
        rw [hs] at hg
        simp at hg
    subst hnil
    rfl
  | some c =>
    obtain ⟨hp, hn⟩ := h c hg
    rw [if_neg (by simp [hn])]
    unfold dropRunEnd
    cases hr : s.reverse with
    | nil =>
      have hnil : s = [] := by
        have h2 := congrArg List.reverse hr
        rwa [List.reverse_reverse] at h2
      subst hnil
      rfl
    | cons c' r =>
      have hc' : c' = c := by
        have h1 : s.reverse.head? = some c' := by rw [hr]; rfl
        rw [List.head?_reverse] at h1
        rw [hg] at h1
        injection h1 with h1
        exact h1.symm
      subst hc'
      rw [List.dropWhile_cons, if_neg (by simp [hp]), ← hr,
        List.reverse_reverse]

theorem dotJoin_stripT_fix (bs : List (List Char)) (t : List Char)
    (htlen : 2 ≤ t.length) (htal : ∀ c ∈ t, isAsciiLetter c = true) :
    stripT (dotJoin bs t) = dotJoin bs t := by
  apply stripT_fix
  intro c hc
  obtain ⟨pre, hp⟩ := dotJoin_decomp bs t
  have htne : t ≠ [] := by
    intro he
    rw [he] at htlen
    simp at htlen
  rw [hp, List.getLast?_append_of_ne_nil pre htne] at hc
  have hcm : c ∈ t := by
    cases t with
    | nil => exact absurd rfl htne
    | cons x xs =>
      have := List.mem_getLast?_eq_getLast hc
      obtain ⟨hh, hgl⟩ := this
      exact hgl ▸ List.getLast_mem hh
  have hca := htal c hcm
  simp only [isAsciiLetter] at hca
  constructor
  · by_contra hcon
    simp only [Bool.not_eq_false] at hcon
    have : ((((c = '.' ∨ c = ',') ∨ c = ';') ∨ c = ':') ∨ c = '!') ∨ c = ')' := by
      simpa [isTrailPunct] using hcon
    rcases this with ((((rfl | rfl) | rfl) | rfl) | rfl) | rfl <;>
      exact absurd hca (by decide)
  · intro he
    rw [he] at hca
    exact absurd hca (by decide)

/-- C10, amended: the negative lookbehind blocks only the match starting
right after `@`.  For a text `local@a.b₁.….bₖ.tld` whose domain has at
least three dot-separated labels (so the suffix from the second label still
has at least two), the extraction still returns that suffix, whose match
position is preceded by `.`, not `@`.  (As stated, with only two labels,
the suffix is a single label, which the pattern cannot match.) -/
theorem C10_amended_suffix_extracted (l a t : List Char) (bs : List (List Char))
    (hl : l ≠ [] ∧ ∀ c ∈ l, c.isAlphanum = true)
    (ha : a ≠ [] ∧ ∀ c ∈ a, c.isAlphanum = true)
    (hbs : bs ≠ [] ∧ ∀ b ∈ bs, b ≠ [] ∧ ∀ c ∈ b, c.isAlphanum = true)
    (ht : 2 ≤ t.length ∧ ∀ c ∈ t, isAsciiLetter c = true) :
    String.mk (dotJoin bs t) ∈
      extract_urls (String.mk (l ++ '@' :: (a ++ '.' :: dotJoin bs t))) := by
  obtain ⟨hlne, hlal⟩ := hl
  obtain ⟨hane, haal⟩ := ha
  obtain ⟨hbne, hball⟩ := hbs
  obtain ⟨htlen, htal⟩ := ht
  have hwalk : dotJoin bs t ∈
      bareFind none (l ++ '@' :: (a ++ '.' :: dotJoin bs t)) := by
    cases hlc : l with
    | nil => exact absurd hlc hlne
    | cons c₀ l' =>
      subst hlc
      rw [List.cons_append, bareFind_cons]
      have hc₀ := hlal c₀ (List.mem_cons_self _ _)
      have hcond : (none ≠ some '@' ∧ isWordOpt none ≠ isWordChar c₀) := by
        refine ⟨by simp, ?_⟩
        show (false : Bool) ≠ isWordChar c₀
        rw [alnum_isWord hc₀]
        decide
      rw [if_pos hcond]
      have hmt : bareTail (c₀ :: (l' ++ '@' :: (a ++ '.' :: dotJoin bs t))) =
          none := by
        have h2 := bareTail_alnum_at (c₀ :: l') (a ++ '.' :: dotJoin bs t)
          (by simp) hlal
        rw [List.cons_append] at h2
        exact h2
      rw [hmt]
      dsimp only
      rw [bareFind_skip_word l'
        (fun d hd => alnum_isWord (hlal d (List.mem_cons_of_mem c₀ hd)))
        c₀ (alnum_isWord hc₀) ('@' :: (a ++ '.' :: dotJoin bs t))]
      have hlast : isWordChar (l'.getLastD c₀) = true :=
        alnum_isWord (getLastD_alnum
          (fun d hd => hlal d (List.mem_cons_of_mem c₀ hd)) hc₀)
      rw [bareFind_at_sign hlast]
      cases hac : a with
      | nil => exact absurd hac hane
      | cons c₁ a' =>
        subst hac
        rw [List.cons_append, bareFind_blocked]
        have hc₁ := haal c₁ (List.mem_cons_self _ _)
        rw [bareFind_skip_word a'
          (fun d hd => alnum_isWord (haal d (List.mem_cons_of_mem c₁ hd)))
          c₁ (alnum_isWord hc₁) ('.' :: dotJoin bs t)]
        have hlast₂ : isWordChar (a'.getLastD c₁) = true :=
          alnum_isWord (getLastD_alnum
            (fun d hd => haal d (List.mem_cons_of_mem c₁ hd)) hc₁)
        rw [bareFind_dot hlast₂]
        exact bareFind_domain_head bs t hball hbne htlen htal
  unfold extract_urls extractCore
  rw [List.mem_map]
  refine ⟨dotJoin bs t, ?_, rfl⟩
  rw [dedupAux_mem]
  refine ⟨?_, by simp⟩
  rw [List.mem_map]
  refine ⟨dotJoin bs t, ?_, dotJoin_stripT_fix bs t htlen htal⟩
  rw [List.mem_append]
  right
  exact hwalk

set_option maxRecDepth 40000 in
/-- C10 amended witness: `"user@mail.example.com"` — the domain has three
labels, and `"example.com"` is extracted. -/
theorem C10_amended_witness :
    String.mk (dotJoin [['e', 'x', 'a', 'm', 'p', 'l', 'e']] ['c', 'o', 'm']) ∈
      extract_urls (String.mk
        (['u', 's', 'e', 'r'] ++ '@' :: (['m', 'a', 'i', 'l'] ++ '.' ::
          dotJoin [['e', 'x', 'a', 'm', 'p', 'l', 'e']] ['c', 'o', 'm']))) :=
  C10_amended_suffix_extracted ['u', 's', 'e', 'r'] ['m', 'a', 'i', 'l']
    ['c', 'o', 'm'] [['e', 'x', 'a', 'm', 'p', 'l', 'e']]
    ⟨by decide, by decide⟩ ⟨by decide, by decide⟩ ⟨by decide, by decide⟩
    ⟨by decide, by decide⟩
